import Mathlib

/-!
Shallow embedding of the raytracer core: the intersection code of
src/hittables.rs, the material model of src/materials.rs and the radiance
integration of src/render.rs.  Machine f32 scalars are modelled by exact
rationals.  The f32 INFINITY used as the upper bound of the search interval
in render.rs is modelled by WithTop on the rationals, so an interval keeps
a rational lower bound and a possibly infinite upper bound.  The f32 sqrt
calls (Sphere hit, vector normalize, refract) are abstracted as an explicit
function argument named sq; theorems that depend on the numeric value of a
square root carry hypotheses fixing sq at the relevant argument.  The
random draws of materials.rs and render.rs are passed in as explicit
arguments.  Trait objects behind the Hittable trait are modelled by plain
functions from ray and interval to an optional hit.
-/

namespace RayTracer

/-- Three component vector over the rationals, modelling glam Vec3.  The
Point3 and Color3 names of the source are aliases of Vec3. -/
structure Vec3 where
  x : ℚ
  y : ℚ
  z : ℚ
  deriving DecidableEq

/-- Constructor helper mirroring the vec3 and point3 and color3 helpers. -/
def vec3 (x y z : ℚ) : Vec3 := ⟨x, y, z⟩

instance : Add Vec3 := ⟨fun a b => ⟨a.x + b.x, a.y + b.y, a.z + b.z⟩⟩

instance : Sub Vec3 := ⟨fun a b => ⟨a.x - b.x, a.y - b.y, a.z - b.z⟩⟩

instance : Neg Vec3 := ⟨fun a => ⟨-a.x, -a.y, -a.z⟩⟩

instance : SMul ℚ Vec3 := ⟨fun c a => ⟨c * a.x, c * a.y, c * a.z⟩⟩

instance : Mul Vec3 := ⟨fun a b => ⟨a.x * b.x, a.y * b.y, a.z * b.z⟩⟩

instance : HDiv Vec3 ℚ Vec3 := ⟨fun a c => ⟨a.x / c, a.y / c, a.z / c⟩⟩

@[ext] theorem Vec3.ext : ∀ {a b : Vec3}, a.x = b.x → a.y = b.y → a.z = b.z → a = b
  | ⟨_, _, _⟩, ⟨_, _, _⟩, rfl, rfl, rfl => rfl

@[simp] theorem Vec3.add_def (a b : Vec3) : a + b = ⟨a.x + b.x, a.y + b.y, a.z + b.z⟩ := rfl

@[simp] theorem Vec3.sub_def (a b : Vec3) : a - b = ⟨a.x - b.x, a.y - b.y, a.z - b.z⟩ := rfl

@[simp] theorem Vec3.neg_def (a : Vec3) : -a = (⟨-a.x, -a.y, -a.z⟩ : Vec3) := rfl

@[simp] theorem Vec3.smul_def (c : ℚ) (a : Vec3) : c • a = ⟨c * a.x, c * a.y, c * a.z⟩ := rfl

@[simp] theorem Vec3.mul_def (a b : Vec3) : a * b = ⟨a.x * b.x, a.y * b.y, a.z * b.z⟩ := rfl

@[simp] theorem Vec3.div_def (a : Vec3) (c : ℚ) : a / c = ⟨a.x / c, a.y / c, a.z / c⟩ := rfl

/-- Dot product of glam Vec3. -/
def Vec3.dot (a b : Vec3) : ℚ := a.x * b.x + a.y * b.y + a.z * b.z

/-- Cross product of glam Vec3. -/
def Vec3.cross (a b : Vec3) : Vec3 :=
  ⟨a.y * b.z - a.z * b.y, a.z * b.x - a.x * b.z, a.x * b.y - a.y * b.x⟩

/-- Squared length of glam Vec3, the dot product of a vector with itself. -/
def Vec3.lengthSquared (a : Vec3) : ℚ := a.dot a

/-- Normalization of glam Vec3, a division by the length.  The length is a
square root, so the abstract square root function sq is an argument. -/
def Vec3.normalize (sq : ℚ → ℚ) (a : Vec3) : Vec3 := a / sq a.lengthSquared

/-- A ray of render.rs: an origin and a direction. -/
structure Ray where
  origin : Vec3
  dir : Vec3
  deriving DecidableEq

/-- Evaluation of a ray at parameter t, the at method of render.rs. -/
def Ray.at (r : Ray) (t : ℚ) : Vec3 := r.origin + t • r.dir

/-- The closed material enumeration of materials.rs. -/
inductive Material where
  | Lambertian (albedo : Vec3)
  | Metal (albedo : Vec3) (fuzz : ℚ)
  | Dielectric (refract_idx : ℚ)
  | DiffuseLight (emit : Vec3)
  deriving DecidableEq

/-- The hit record of hittables.rs. -/
structure Hit where
  p : Vec3
  normal : Vec3
  t : ℚ
  front_face : Bool
  material : Material
  deriving DecidableEq

/-- The Hit constructor of hittables.rs: front_face is the sign test of the
ray direction against the outward normal, and the stored normal is the
outward normal flipped to face the incoming ray. -/
def Hit.new (p : Vec3) (outward_normal : Vec3) (ray : Ray) (t : ℚ) (material : Material) : Hit :=
  { p := p
    normal := if ray.dir.dot outward_normal < 0 then outward_normal else -outward_normal
    t := t
    front_face := decide (ray.dir.dot outward_normal < 0)
    material := material }

/-- The search interval of hittables.rs.  The lower bound is a rational and
the upper bound lives in WithTop so that the f32 INFINITY used by render.rs
is representable. -/
structure Interval where
  min : ℚ
  max : WithTop ℚ
  deriving DecidableEq

/-- The Interval constructor. -/
def Interval.new (min : ℚ) (max : WithTop ℚ) : Interval := ⟨min, max⟩

/-- Inclusive bounds test, the contains method of hittables.rs. -/
def Interval.contains (i : Interval) (val : ℚ) : Prop :=
  i.min ≤ val ∧ ((val : WithTop ℚ) ≤ i.max)

instance (i : Interval) (val : ℚ) : Decidable (i.contains val) :=
  inferInstanceAs (Decidable (_ ∧ _))

/-- Strict bounds test, the surrounds method of hittables.rs. -/
def Interval.surrounds (i : Interval) (val : ℚ) : Prop :=
  i.min < val ∧ ((val : WithTop ℚ) < i.max)

instance (i : Interval) (val : ℚ) : Decidable (i.surrounds val) :=
  inferInstanceAs (Decidable (_ ∧ _))

/-- The sphere primitive of hittables.rs. -/
structure Sphere where
  center : Vec3
  radius : ℚ
  mat : Material

/-- The sphere intersection of hittables.rs.  The quadratic is solved in the
half b form; on a nonnegative discriminant the smaller root is tried first
against the strict interval test, then the larger root, and the selected
root builds the hit.  The f32 sqrt call is the abstract argument sq. -/
def Sphere.hit (sq : ℚ → ℚ) (s : Sphere) (ray : Ray) (rayT : Interval) : Option Hit :=
  let oc := ray.origin - s.center
  let a := ray.dir.lengthSquared
  let half_b := oc.dot ray.dir
  let c := oc.lengthSquared - s.radius * s.radius
  let discriminant := half_b * half_b - a * c
  if discriminant < 0 then none
  else
    let sqrtd := sq discriminant
    let root1 := (-half_b - sqrtd) / a
    let root2 := (-half_b + sqrtd) / a
    if rayT.surrounds root1 then
      some (Hit.new (ray.at root1) ((ray.at root1 - s.center) / s.radius) ray root1 s.mat)
    else if rayT.surrounds root2 then
      some (Hit.new (ray.at root2) ((ray.at root2 - s.center) / s.radius) ray root2 s.mat)
    else none

/-- The quad primitive of hittables.rs, with the derived plane data stored
at construction time exactly as in the source struct. -/
structure Quad where
  q : Vec3
  u : Vec3
  v : Vec3
  mat : Material
  normal : Vec3
  d : ℚ
  w : Vec3

/-- The Quad constructor of hittables.rs: derives the plane normal from the
cross product of the edges, the plane offset, and the basis projection
vector w.  The normalize call uses the abstract square root sq. -/
def Quad.new (sq : ℚ → ℚ) (q u v : Vec3) (mat : Material) : Quad :=
  let n := u.cross v
  let normal := n.normalize sq
  { q := q, u := u, v := v, mat := mat
    normal := normal
    d := normal.dot q
    w := n / n.dot n }

/-- The quad intersection of hittables.rs: rejects near parallel rays by an
epsilon test on the denominator, solves the plane equation, rejects t
outside the inclusive interval, computes planar coordinates alpha and beta
and rejects points outside the unit square. -/
def Quad.hit (quad : Quad) (ray : Ray) (rayT : Interval) : Option Hit :=
  let EPSILON : ℚ := 1 / 100000000
  let denom := quad.normal.dot ray.dir
  if |denom| < EPSILON then none
  else
    let t := (quad.d - quad.normal.dot ray.origin) / denom
    if ¬ rayT.contains t then none
    else
      let intersection := ray.at t
      let planar_hit_vector := intersection - quad.q
      let alpha := quad.w.dot (planar_hit_vector.cross quad.v)
      let beta := quad.w.dot (quad.u.cross planar_hit_vector)
      if alpha < 0 ∨ alpha > 1 ∨ beta < 0 ∨ beta > 1 then none
      else some (Hit.new intersection quad.normal ray t quad.mat)

/-- A primitive behind the Hittable trait, modelled extensionally as its
hit function. -/
def HitFun : Type := Ray → Interval → Option Hit

/-- The loop body of the HittableVec hit of hittables.rs: scans the list,
querying each member with the interval from the fixed lower bound to the
current closest t, and updates the closest hit on success. -/
def hitLoop (ray : Ray) (rayTmin : ℚ) :
    List HitFun → Option Hit → WithTop ℚ → Option Hit
  | [], closest_hit, _ => closest_hit
  | obj :: rest, closest_hit, closest_t =>
    match obj ray (Interval.new rayTmin closest_t) with
    | some hit => hitLoop ray rayTmin rest (some hit) (hit.t : WithTop ℚ)
    | none => hitLoop ray rayTmin rest closest_hit closest_t

/-- The HittableVec hit of hittables.rs: the closest hit starts empty and
the closest t starts at the interval upper bound. -/
def HittableVec.hit (objs : List HitFun) (ray : Ray) (rayT : Interval) : Option Hit :=
  hitLoop ray rayT.min objs none rayT.max

/-- The Translate wrapper hit of hittables.rs: shifts the ray origin by the
negated offset, delegates, and adds the offset back onto the hit point. -/
def Translate.hit (offset : Vec3) (object : HitFun) (ray : Ray) (rayT : Interval) : Option Hit :=
  let offset_r : Ray := ⟨ray.origin - offset, ray.dir⟩
  match object offset_r rayT with
  | some hit => some ⟨hit.p + offset, hit.normal, hit.t, hit.front_face, hit.material⟩
  | none => none

/-- The RotateY wrapper hit of hittables.rs, with the stored sine and
cosine as arguments.  The ray is rotated into object space, the hit point
and normal are rotated back; the normal z component is transcribed exactly
as in the source, including the additive y term. -/
def RotateY.hit (sin_theta cos_theta : ℚ) (object : HitFun)
    (ray : Ray) (rayT : Interval) : Option Hit :=
  let origin := vec3
    (cos_theta * ray.origin.x - sin_theta * ray.origin.z)
    ray.origin.y
    (sin_theta * ray.origin.x + cos_theta * ray.origin.z)
  let dir := vec3
    (cos_theta * ray.dir.x - sin_theta * ray.dir.z)
    ray.dir.y
    (sin_theta * ray.dir.x + cos_theta * ray.dir.z)
  let rotated_r : Ray := ⟨origin, dir⟩
  match object rotated_r rayT with
  | some hit =>
    some ⟨vec3 (cos_theta * hit.p.x + sin_theta * hit.p.z)
               hit.p.y
               (-sin_theta * hit.p.x + cos_theta * hit.p.z),
          vec3 (cos_theta * hit.normal.x + sin_theta * hit.normal.z)
               hit.normal.y
               (hit.normal.y - sin_theta * hit.normal.x + cos_theta * hit.normal.z),
          hit.t, hit.front_face, hit.material⟩
  | none => none

/-- The scattered record of materials.rs: an outgoing ray and the color
attenuation. -/
structure Scattered where
  ray : Ray
  attenuation : Vec3
  deriving DecidableEq

/-- Mirror reflection helper of materials.rs. -/
def reflect (v normal : Vec3) : Vec3 := v - (2 * v.dot normal) • normal

/-- Snell refraction helper of materials.rs, decomposed into perpendicular
and parallel components.  The inner f32 sqrt call is the argument sq. -/
def refract (sq : ℚ → ℚ) (uv normal : Vec3) (etai_over_etat : ℚ) : Vec3 :=
  let cos_theta := min ((-uv).dot normal) 1
  let r_out_perp := etai_over_etat • (uv + cos_theta • normal)
  let r_out_parallel := (-(sq |1 - r_out_perp.lengthSquared|)) • normal
  r_out_perp + r_out_parallel

/-- Near zero test of materials.rs: every component below 1e-8 in
magnitude. -/
def is_near_zero (v : Vec3) : Prop :=
  let EPSILON : ℚ := 1 / 100000000
  |v.x| < EPSILON ∧ |v.y| < EPSILON ∧ |v.z| < EPSILON

instance (v : Vec3) : Decidable (is_near_zero v) :=
  inferInstanceAs (Decidable (_ ∧ _ ∧ _))

/-- The fuzz value actually used by the Metal branch of scatter: the stored
fuzz when below one, else one. -/
def Material.effectiveFuzz (fuzz : ℚ) : ℚ := if fuzz < 1 then fuzz else 1

/-- Schlick reflectance used by the Dielectric branch of scatter. -/
def Material.reflectance (refract_ratio cos_theta : ℚ) : ℚ :=
  let r0 := (1 - refract_ratio) / (1 + refract_ratio)
  let r0sq := r0 * r0
  r0sq + (1 - r0sq) * (1 - cos_theta) ^ 5

/-- The scatter function of materials.rs.  The random unit vector drawn by
the Lambertian and Metal branches is the argument rvec, and the uniform
sample drawn by the Dielectric branch is the argument rnd; f32 sqrt is sq.
The sine of the incidence angle in the Dielectric branch is the square root
of one minus the squared cosine. -/
def Material.scatter (sq : ℚ → ℚ) (rvec : Vec3) (rnd : ℚ)
    (ray : Ray) (hit : Hit) : Option Scattered :=
  match hit.material with
  | Material.Lambertian albedo =>
    let scatter_dir := hit.normal + rvec
    let scatter_dir := if is_near_zero scatter_dir then hit.normal else scatter_dir
    some ⟨⟨hit.p, scatter_dir⟩, albedo⟩
  | Material.Metal albedo fuzz =>
    let fuzz := Material.effectiveFuzz fuzz
    let reflected := reflect (ray.dir.normalize sq) hit.normal
    let scattered : Ray := ⟨hit.p, reflected + fuzz • rvec⟩
    if scattered.dir.dot hit.normal > 0 then some ⟨scattered, albedo⟩ else none
  | Material.Dielectric refract_idx =>
    let refract_ratio := if hit.front_face then 1 / refract_idx else refract_idx
    let unit_dir := ray.dir.normalize sq
    let cos_theta := min ((-unit_dir).dot hit.normal) 1
    let sin_theta := sq (1 - cos_theta * cos_theta)
    let cannot_refract := refract_ratio * sin_theta > 1
    let dir := if cannot_refract ∨ Material.reflectance refract_ratio cos_theta > rnd then
        reflect unit_dir hit.normal
      else refract sq unit_dir hit.normal refract_ratio
    some ⟨⟨hit.p, dir⟩, vec3 1 1 1⟩
  | Material.DiffuseLight _ => none

/-- The emitted function of materials.rs: the stored radiance for a diffuse
light, zero for every other material kind. -/
def Material.emitted (m : Material) : Vec3 :=
  match m with
  | Material.DiffuseLight emit => emit
  | _ => vec3 0 0 0

/-- The camera of render.rs; the fields are those of the source struct. -/
structure Camera where
  samples_per_pixel : ℕ
  max_depth : ℕ
  background : Vec3
  center : Vec3
  pixel00_loc : Vec3
  pixel_delta_u : Vec3
  pixel_delta_v : Vec3
  defocus_angle : ℚ
  defocus_disk_u : Vec3
  defocus_disk_v : Vec3

/-- The recursive radiance integration ray_color of render.rs.  Depth zero
returns zero radiance; otherwise the scene is intersected over the interval
from 0.001 to infinity, a miss returns the camera background, and a hit
adds the emitted radiance to the attenuated recursive color of the
scattered ray when the material scatters.  The random draws consumed by
scatter at each depth are read from the stream rho. -/
def Camera.rayColor (sq : ℚ → ℚ) (rho : ℕ → Vec3 × ℚ) (cam : Camera)
    (ray : Ray) (depth : ℕ) (world : List HitFun) : Vec3 :=
  match depth with
  | 0 => vec3 0 0 0
  | d + 1 =>
    match HittableVec.hit world ray (Interval.new (1 / 1000) ⊤) with
    | none => cam.background
    | some hit =>
      let emission_color := hit.material.emitted
      let scatter_color :=
        match Material.scatter sq (rho d).1 (rho d).2 ray hit with
        | some scattered =>
          scattered.attenuation * Camera.rayColor sq rho cam scattered.ray d world
        | none => vec3 0 0 0
      emission_color + scatter_color

/-! Concrete inputs shared by witnesses and counterexamples. -/

/-- A lambertian material used in concrete inputs. -/
def mLam : Material := Material.Lambertian (vec3 1 1 1)

/-- Unit sphere at the origin with a lambertian material. -/
def sphereUnit : Sphere := ⟨vec3 0 0 0, 1, mLam⟩

/-- Ray shot downward from above the unit sphere. -/
def rayDown : Ray := ⟨vec3 0 2 0, vec3 0 (-1) 0⟩

/-- Ray shot toward the unit sphere along the z axis. -/
def rayFront : Ray := ⟨vec3 0 0 (-2), vec3 0 0 1⟩

/-- The search interval used by render.rs, from 0.001 to infinity. -/
def intEps : Interval := Interval.new (1 / 1000) ⊤

/-- A camera with trivial geometry used in witnesses. -/
def camW : Camera :=
  ⟨10, 10, vec3 1 1 1, vec3 0 0 0, vec3 0 0 0, vec3 0 0 0, vec3 0 0 0, 0,
   vec3 0 0 0, vec3 0 0 0⟩

/-- A trivial random stream used in witnesses. -/
def rhoW : ℕ → Vec3 × ℚ := fun _ => (vec3 0 0 0, 0)

/-- Claim C6: ray_color invoked with depth zero returns exactly zero
radiance, for every square root model, random stream, camera, ray and
scene; neither the scene nor the background is consulted. -/
theorem rayColor_depth_zero (sq : ℚ → ℚ) (rho : ℕ → Vec3 × ℚ) (cam : Camera)
    (ray : Ray) (world : List HitFun) :
    Camera.rayColor sq rho cam ray 0 world = vec3 0 0 0 := rfl

/-- Claim C10: the aggregate intersection of an empty primitive list is
none for every ray and interval, and ray_color on the empty scene returns
the configured background at every depth of at least one. -/
theorem empty_scene_background (sq : ℚ → ℚ) (rho : ℕ → Vec3 × ℚ) (cam : Camera)
    (ray : Ray) (rayT : Interval) (depth : ℕ) (hd : 1 ≤ depth) :
    HittableVec.hit [] ray rayT = none ∧
    Camera.rayColor sq rho cam ray depth [] = cam.background := by
  obtain ⟨d, rfl⟩ : ∃ d, depth = d + 1 :=
    ⟨depth - 1, (Nat.succ_pred_eq_of_pos hd).symm⟩
  exact ⟨rfl, rfl⟩

/-- Witness for claim C10 at a concrete camera, ray and depth one. -/
theorem empty_scene_background_witness :
    HittableVec.hit [] rayFront intEps = none ∧
    Camera.rayColor id rhoW camW rayFront 1 [] = camW.background :=
  empty_scene_background id rhoW camW rayFront intEps 1 (by decide)

/-- Claim C7: scatter returns none whenever the material of the hit is a
diffuse light, emitted returns the stored radiance of a diffuse light, and
emitted returns zero for every other material kind. -/
theorem diffuse_light_scatter_emitted (sq : ℚ → ℚ) (rvec : Vec3) (rnd : ℚ)
    (ray : Ray) (hit : Hit) (e a : Vec3) (f ri : ℚ) :
    (hit.material = Material.DiffuseLight e →
      Material.scatter sq rvec rnd ray hit = none) ∧
    Material.emitted (Material.DiffuseLight e) = e ∧
    Material.emitted (Material.Lambertian a) = vec3 0 0 0 ∧
    Material.emitted (Material.Metal a f) = vec3 0 0 0 ∧
    Material.emitted (Material.Dielectric ri) = vec3 0 0 0 := by
  refine ⟨fun hm => ?_, rfl, rfl, rfl, rfl⟩
  simp only [Material.scatter, hm]

/-- A hit whose material is a diffuse light, used by the claim C7
witness. -/
def hitLight : Hit := ⟨vec3 0 0 0, vec3 0 0 1, 1, true, Material.DiffuseLight (vec3 4 5 6)⟩

/-- Witness for claim C7 at a concrete diffuse light hit. -/
theorem diffuse_light_scatter_emitted_witness :
    Material.scatter id (vec3 0 0 0) 0 rayFront hitLight = none ∧
    Material.emitted (Material.DiffuseLight (vec3 4 5 6)) = vec3 4 5 6 := by
  have H := diffuse_light_scatter_emitted id (vec3 0 0 0) 0 rayFront hitLight
    (vec3 4 5 6) (vec3 0 0 0) 0 0
  exact ⟨H.1 rfl, H.2.1⟩

/-- A metal hit with stored fuzz minus two, used by the claim C8
counterexample. -/
def hitMetalNeg : Hit := ⟨vec3 0 0 0, vec3 0 0 1, 1, true, Material.Metal (vec3 1 0 0) (-2)⟩

/-- A metal hit with stored fuzz one half, used by the claim C8
witness. -/
def hitMetalHalf : Hit := ⟨vec3 0 0 0, vec3 0 0 1, 1, true, Material.Metal (vec3 1 0 0) (1 / 2)⟩

/-- Ray hitting the metal surface head on, used by the claim C8
theorems. -/
def rayMetal : Ray := ⟨vec3 0 0 0, vec3 0 0 (-1)⟩

/-- Counterexample for claim C8: with stored fuzz minus two the Metal
branch multiplies minus two into the perturbation, a coefficient outside
the unit interval, and the scattered direction is the reflection minus two
times the random vector. -/
theorem metal_fuzz_counterexample :
    Material.effectiveFuzz (-2) = -2 ∧ ¬ ((0 : ℚ) ≤ Material.effectiveFuzz (-2)) ∧
    Material.scatter id (vec3 1 0 0) 0 rayMetal hitMetalNeg =
      some ⟨⟨vec3 0 0 0, vec3 (-2) 0 1⟩, vec3 1 0 0⟩ := by
  refine ⟨rfl, by norm_num [Material.effectiveFuzz], ?_⟩
  norm_num [Material.scatter, Material.effectiveFuzz, hitMetalNeg, rayMetal, reflect,
    Vec3.normalize, Vec3.dot, Vec3.lengthSquared, vec3]

/-- Claim C8 amended: the fuzz actually used by the Metal branch is the
stored fuzz clamped from above at one only; it lies in the unit interval
when the stored fuzz is nonnegative, is unchanged below one, and the
scattered direction is the reflection plus that fuzz times the random
vector. -/
theorem metal_fuzz_clamped (sq : ℚ → ℚ) (rvec : Vec3) (rnd : ℚ) (ray : Ray)
    (hit : Hit) (a : Vec3) (f : ℚ) (s : Scattered) :
    Material.effectiveFuzz f ≤ 1 ∧
    (0 ≤ f → 0 ≤ Material.effectiveFuzz f ∧ Material.effectiveFuzz f ≤ 1) ∧
    (f < 1 → Material.effectiveFuzz f = f) ∧
    (hit.material = Material.Metal a f →
      Material.scatter sq rvec rnd ray hit = some s →
      s.ray.dir = reflect (ray.dir.normalize sq) hit.normal +
        Material.effectiveFuzz f • rvec) := by
  refine ⟨?_, fun hf => ⟨?_, ?_⟩, fun hf => if_pos hf, fun hm hs => ?_⟩
  · unfold Material.effectiveFuzz
    split_ifs with h
    · exact le_of_lt h
    · exact le_refl 1
  · unfold Material.effectiveFuzz
    split_ifs with h
    · exact hf
    · norm_num
  · unfold Material.effectiveFuzz
    split_ifs with h
    · exact le_of_lt h
    · exact le_refl 1
  · simp only [Material.scatter, hm] at hs
    split_ifs at hs with h
    injection hs with hs2
    rw [← hs2]

/-- Witness for the amended claim C8 at stored fuzz one half. -/
theorem metal_fuzz_clamped_witness :
    (0 : ℚ) ≤ 1 / 2 ∧
    0 ≤ Material.effectiveFuzz (1 / 2) ∧ Material.effectiveFuzz (1 / 2) ≤ 1 ∧
    (⟨⟨vec3 0 0 0, vec3 (1 / 2) 0 1⟩, vec3 1 0 0⟩ : Scattered).ray.dir =
      reflect (Vec3.normalize id (vec3 0 0 (-1))) (vec3 0 0 1) +
        Material.effectiveFuzz (1 / 2) • vec3 1 0 0 := by
  have H := metal_fuzz_clamped id (vec3 1 0 0) 0 rayMetal hitMetalHalf
    (vec3 1 0 0) (1 / 2) ⟨⟨vec3 0 0 0, vec3 (1 / 2) 0 1⟩, vec3 1 0 0⟩
  refine ⟨by norm_num, (H.2.1 (by norm_num)).1, (H.2.1 (by norm_num)).2, ?_⟩
  exact H.2.2.2 rfl (by
    norm_num [Material.scatter, Material.effectiveFuzz, hitMetalHalf, rayMetal, reflect,
      Vec3.normalize, Vec3.dot, Vec3.lengthSquared, vec3])

/-- Rotation by plus theta about the Y axis, the formula RotateY applies to
the hit point when rotating back into world space (hittables.rs lines 216
to 220). -/
def rotY (sin_theta cos_theta : ℚ) (v : Vec3) : Vec3 :=
  vec3 (cos_theta * v.x + sin_theta * v.z) v.y (-sin_theta * v.x + cos_theta * v.z)

/-- Claim C3 failing input: RotateY with angle zero, whose sine is zero and
cosine is one exactly, wrapping the unit sphere, hit by a straight downward
ray.  The wrapped sphere returns the unit normal pointing up, but the
RotateY back rotation of the normal adds the y component into the z
component and returns a normal of squared length two, so the returned
normal is not unit length. -/
theorem rotateY_normal_not_unit :
    RotateY.hit 0 1 (fun r i => Sphere.hit id sphereUnit r i) rayDown intEps =
      some ⟨vec3 0 1 0, vec3 0 1 1, 1, true, mLam⟩ ∧
    Vec3.lengthSquared (vec3 0 1 1) = 2 ∧ (2 : ℚ) ≠ 1 := by
  refine ⟨?_, by norm_num [Vec3.lengthSquared, Vec3.dot, vec3], by norm_num⟩
  norm_num [RotateY.hit, Sphere.hit, sphereUnit, rayDown, intEps, mLam, Hit.new,
    Interval.surrounds, Interval.new, Ray.at, Vec3.lengthSquared, Vec3.dot, vec3]

/-- Claim C4 failing input: RotateY with angle zero, wrapping the unit
sphere, hit by a straight downward ray.  The hit point is rotated back by
the exact inverse rotation, but the returned normal differs from the
inverse rotation of the inner normal: the z component picks up the extra
additive y term of hittables.rs line 224. -/
theorem rotateY_normal_not_back_rotated :
    Sphere.hit id sphereUnit rayDown intEps =
      some ⟨vec3 0 1 0, vec3 0 1 0, 1, true, mLam⟩ ∧
    RotateY.hit 0 1 (fun r i => Sphere.hit id sphereUnit r i) rayDown intEps =
      some ⟨vec3 0 1 0, vec3 0 1 1, 1, true, mLam⟩ ∧
    rotY 0 1 (vec3 0 1 0) = vec3 0 1 0 ∧
    (vec3 0 1 1 : Vec3) ≠ rotY 0 1 (vec3 0 1 0) := by
  refine ⟨?_, ?_, by norm_num [rotY, vec3], by norm_num [rotY, vec3]⟩
  · norm_num [Sphere.hit, sphereUnit, rayDown, intEps, mLam, Hit.new,
      Interval.surrounds, Interval.new, Ray.at, Vec3.lengthSquared, Vec3.dot, vec3]
  · norm_num [RotateY.hit, Sphere.hit, sphereUnit, rayDown, intEps, mLam, Hit.new,
      Interval.surrounds, Interval.new, Ray.at, Vec3.lengthSquared, Vec3.dot, vec3]

/-- The plane denominator of the quad intersection, the local named denom
in hittables.rs. -/
def Quad.denom (quad : Quad) (ray : Ray) : ℚ := quad.normal.dot ray.dir

/-- The plane intersection parameter of the quad intersection, the local
named t in hittables.rs. -/
def Quad.tHit (quad : Quad) (ray : Ray) : ℚ :=
  (quad.d - quad.normal.dot ray.origin) / Quad.denom quad ray

/-- The first planar coordinate of the quad intersection, the local named
alpha in hittables.rs. -/
def Quad.alpha (quad : Quad) (ray : Ray) : ℚ :=
  quad.w.dot ((ray.at (Quad.tHit quad ray) - quad.q).cross quad.v)

/-- The second planar coordinate of the quad intersection, the local named
beta in hittables.rs. -/
def Quad.beta (quad : Quad) (ray : Ray) : ℚ :=
  quad.w.dot (quad.u.cross (ray.at (Quad.tHit quad ray) - quad.q))

/-- Unfolding of the quad intersection as a chain of the three rejection
tests of hittables.rs. -/
theorem quad_hit_eq (quad : Quad) (ray : Ray) (rayT : Interval) :
    Quad.hit quad ray rayT =
      if |Quad.denom quad ray| < 1 / 100000000 then none
      else if ¬ rayT.contains (Quad.tHit quad ray) then none
      else if Quad.alpha quad ray < 0 ∨ Quad.alpha quad ray > 1 ∨
          Quad.beta quad ray < 0 ∨ Quad.beta quad ray > 1 then none
      else some (Hit.new (ray.at (Quad.tHit quad ray)) quad.normal ray
        (Quad.tHit quad ray) quad.mat) := rfl

/-- Claim C5: the quad intersection rejects near parallel rays, rejects
plane intersections outside the inclusive search interval, and otherwise
accepts exactly when both planar coordinates lie in the closed unit
interval; points outside the unit square yield none even though they lie in
the plane within the interval. -/
theorem quad_hit_unit_square (quad : Quad) (ray : Ray) (rayT : Interval) :
    (|Quad.denom quad ray| < 1 / 100000000 → Quad.hit quad ray rayT = none) ∧
    (¬ |Quad.denom quad ray| < 1 / 100000000 → ¬ rayT.contains (Quad.tHit quad ray) →
      Quad.hit quad ray rayT = none) ∧
    (¬ |Quad.denom quad ray| < 1 / 100000000 → rayT.contains (Quad.tHit quad ray) →
      ((Quad.hit quad ray rayT =
          some (Hit.new (ray.at (Quad.tHit quad ray)) quad.normal ray
            (Quad.tHit quad ray) quad.mat)) ↔
        (0 ≤ Quad.alpha quad ray ∧ Quad.alpha quad ray ≤ 1 ∧
          0 ≤ Quad.beta quad ray ∧ Quad.beta quad ray ≤ 1)) ∧
      (¬ (0 ≤ Quad.alpha quad ray ∧ Quad.alpha quad ray ≤ 1 ∧
          0 ≤ Quad.beta quad ray ∧ Quad.beta quad ray ≤ 1) →
        Quad.hit quad ray rayT = none)) := by
  have heq := quad_hit_eq quad ray rayT
  have hiff : (Quad.alpha quad ray < 0 ∨ Quad.alpha quad ray > 1 ∨
      Quad.beta quad ray < 0 ∨ Quad.beta quad ray > 1) ↔
      ¬ (0 ≤ Quad.alpha quad ray ∧ Quad.alpha quad ray ≤ 1 ∧
        0 ≤ Quad.beta quad ray ∧ Quad.beta quad ray ≤ 1) := by
    simp only [not_and_or, not_le, gt_iff_lt]
  refine ⟨fun h1 => ?_, fun h1 h2 => ?_, fun h1 h2 => ⟨⟨fun he => ?_, fun hc => ?_⟩, fun hc => ?_⟩⟩
  · rw [heq, if_pos h1]
  · rw [heq, if_neg h1, if_pos h2]
  · by_contra hc
    rw [heq, if_neg h1, if_neg (not_not_intro h2), if_pos (hiff.mpr hc)] at he
    exact Option.noConfusion he
  · rw [heq, if_neg h1, if_neg (not_not_intro h2), if_neg (fun hl => (hiff.mp hl) hc)]
  · rw [heq, if_neg h1, if_neg (not_not_intro h2), if_pos (hiff.mpr hc)]

/-- Unit quad in the xy plane built by the Quad constructor, used by the
claim C5 witness. -/
def quadW : Quad := Quad.new id (vec3 0 0 0) (vec3 1 0 0) (vec3 0 1 0) mLam

/-- Ray hitting the middle of the unit quad, used by the claim C5
witness. -/
def rayQ : Ray := ⟨vec3 (1 / 2) (1 / 2) (-1), vec3 0 0 1⟩

/-- Witness for claim C5: the ray through the middle of the unit quad is
accepted with both planar coordinates equal to one half. -/
theorem quad_hit_unit_square_witness :
    Quad.hit quadW rayQ intEps =
      some (Hit.new (Ray.at rayQ (Quad.tHit quadW rayQ)) quadW.normal rayQ
        (Quad.tHit quadW rayQ) quadW.mat) ∧
    Quad.alpha quadW rayQ = 1 / 2 ∧ Quad.beta quadW rayQ = 1 / 2 := by
  have ha : Quad.alpha quadW rayQ = 1 / 2 := by
    norm_num [Quad.alpha, Quad.tHit, Quad.denom, quadW, Quad.new, Vec3.normalize,
      Vec3.cross, Vec3.dot, Vec3.lengthSquared, Ray.at, rayQ, vec3]
  have hb : Quad.beta quadW rayQ = 1 / 2 := by
    norm_num [Quad.beta, Quad.tHit, Quad.denom, quadW, Quad.new, Vec3.normalize,
      Vec3.cross, Vec3.dot, Vec3.lengthSquared, Ray.at, rayQ, vec3]
  have h1 : ¬ |Quad.denom quadW rayQ| < 1 / 100000000 := by
    norm_num [Quad.denom, quadW, Quad.new, Vec3.normalize, Vec3.cross, Vec3.dot,
      Vec3.lengthSquared, rayQ, vec3]
  have h2 : intEps.contains (Quad.tHit quadW rayQ) := by
    constructor
    · norm_num [Quad.tHit, Quad.denom, quadW, Quad.new, Vec3.normalize, Vec3.cross,
        Vec3.dot, Vec3.lengthSquared, rayQ, vec3, intEps, Interval.new]
    · simp [intEps, Interval.new]
  have H := (quad_hit_unit_square quadW rayQ intEps).2.2 h1 h2
  exact ⟨H.1.mpr (by rw [ha, hb]; norm_num), ha, hb⟩

/-- The half b coefficient of the sphere quadratic, the local named half_b
in hittables.rs. -/
def Sphere.halfB (s : Sphere) (ray : Ray) : ℚ := (ray.origin - s.center).dot ray.dir

/-- The constant coefficient of the sphere quadratic, the local named c in
hittables.rs. -/
def Sphere.cQuad (s : Sphere) (ray : Ray) : ℚ :=
  (ray.origin - s.center).lengthSquared - s.radius * s.radius

/-- The discriminant of the sphere quadratic in half b form, the local
named discriminant in hittables.rs. -/
def Sphere.discr (s : Sphere) (ray : Ray) : ℚ :=
  Sphere.halfB s ray * Sphere.halfB s ray - ray.dir.lengthSquared * Sphere.cQuad s ray

/-- The root tried first by the sphere intersection, the initial value of
the local named root in hittables.rs. -/
def Sphere.root1 (sq : ℚ → ℚ) (s : Sphere) (ray : Ray) : ℚ :=
  (-Sphere.halfB s ray - sq (Sphere.discr s ray)) / ray.dir.lengthSquared

/-- The fallback root of the sphere intersection, the reassigned value of
the local named root in hittables.rs. -/
def Sphere.root2 (sq : ℚ → ℚ) (s : Sphere) (ray : Ray) : ℚ :=
  (-Sphere.halfB s ray + sq (Sphere.discr s ray)) / ray.dir.lengthSquared

/-- Unfolding of the sphere intersection as the discriminant test followed
by the two root trials of hittables.rs. -/
theorem sphere_hit_eq (sq : ℚ → ℚ) (s : Sphere) (ray : Ray) (rayT : Interval) :
    Sphere.hit sq s ray rayT =
      if Sphere.discr s ray < 0 then none
      else if rayT.surrounds (Sphere.root1 sq s ray) then
        some (Hit.new (ray.at (Sphere.root1 sq s ray))
          ((ray.at (Sphere.root1 sq s ray) - s.center) / s.radius) ray
          (Sphere.root1 sq s ray) s.mat)
      else if rayT.surrounds (Sphere.root2 sq s ray) then
        some (Hit.new (ray.at (Sphere.root2 sq s ray))
          ((ray.at (Sphere.root2 sq s ray) - s.center) / s.radius) ray
          (Sphere.root2 sq s ray) s.mat)
      else none := rfl

/-- Expansion of the squared distance from a ray point to the sphere
center as a quadratic in the ray parameter. -/
theorem sphere_quadratic (s : Sphere) (ray : Ray) (t : ℚ) :
    (ray.at t - s.center).lengthSquared =
      ray.dir.lengthSquared * t ^ 2 + 2 * Sphere.halfB s ray * t +
        (ray.origin - s.center).lengthSquared := by
  simp only [Ray.at, Vec3.lengthSquared, Vec3.dot, Sphere.halfB, Vec3.add_def,
    Vec3.sub_def, Vec3.smul_def]
  ring

/-- Claim C2: the sphere intersection returns none on a negative
discriminant; on a nonnegative discriminant the first root tried is the
smaller one, both roots put the ray point exactly on the sphere, and the
result takes the smaller root when the interval strictly surrounds it,
else the larger root when surrounded, else none, the selected root being
the returned t. -/
theorem sphere_hit_root_selection (sq : ℚ → ℚ) (s : Sphere) (ray : Ray) (rayT : Interval)
    (ha : 0 < ray.dir.lengthSquared)
    (hsq : 0 ≤ Sphere.discr s ray → 0 ≤ sq (Sphere.discr s ray) ∧
      sq (Sphere.discr s ray) * sq (Sphere.discr s ray) = Sphere.discr s ray) :
    (Sphere.discr s ray < 0 → Sphere.hit sq s ray rayT = none) ∧
    (0 ≤ Sphere.discr s ray →
      Sphere.root1 sq s ray ≤ Sphere.root2 sq s ray ∧
      (ray.at (Sphere.root1 sq s ray) - s.center).lengthSquared = s.radius * s.radius ∧
      (ray.at (Sphere.root2 sq s ray) - s.center).lengthSquared = s.radius * s.radius ∧
      Sphere.hit sq s ray rayT =
        (if rayT.surrounds (Sphere.root1 sq s ray) then
          some (Hit.new (ray.at (Sphere.root1 sq s ray))
            ((ray.at (Sphere.root1 sq s ray) - s.center) / s.radius) ray
            (Sphere.root1 sq s ray) s.mat)
        else if rayT.surrounds (Sphere.root2 sq s ray) then
          some (Hit.new (ray.at (Sphere.root2 sq s ray))
            ((ray.at (Sphere.root2 sq s ray) - s.center) / s.radius) ray
            (Sphere.root2 sq s ray) s.mat)
        else none)) := by
  refine ⟨fun hneg => ?_, fun hpos => ?_⟩
  · rw [sphere_hit_eq, if_pos hneg]
  · obtain ⟨hsq0, hsq2⟩ := hsq hpos
    have hane : ray.dir.lengthSquared ≠ 0 := ne_of_gt ha
    have hd : sq (Sphere.discr s ray) * sq (Sphere.discr s ray) =
        Sphere.halfB s ray * Sphere.halfB s ray - ray.dir.lengthSquared *
          ((ray.origin - s.center).lengthSquared - s.radius * s.radius) := hsq2
    have hAr1 : ray.dir.lengthSquared * Sphere.root1 sq s ray =
        -Sphere.halfB s ray - sq (Sphere.discr s ray) := by
      rw [Sphere.root1]
      field_simp
    have hAr2 : ray.dir.lengthSquared * Sphere.root2 sq s ray =
        -Sphere.halfB s ray + sq (Sphere.discr s ray) := by
      rw [Sphere.root2]
      field_simp
    refine ⟨?_, ?_, ?_, by rw [sphere_hit_eq, if_neg (not_lt.mpr hpos)]⟩
    · rw [Sphere.root1, Sphere.root2, div_le_div_iff₀ ha ha]
      nlinarith [mul_nonneg hsq0 (le_of_lt ha)]
    · rw [sphere_quadratic]
      apply mul_left_cancel₀ hane
      linear_combination (ray.dir.lengthSquared * Sphere.root1 sq s ray +
        (-Sphere.halfB s ray - sq (Sphere.discr s ray)) + 2 * Sphere.halfB s ray) * hAr1 + hd
    · rw [sphere_quadratic]
      apply mul_left_cancel₀ hane
      linear_combination (ray.dir.lengthSquared * Sphere.root2 sq s ray +
        (-Sphere.halfB s ray + sq (Sphere.discr s ray)) + 2 * Sphere.halfB s ray) * hAr2 + hd

/-- Witness for claim C2 at the unit sphere and a frontal ray whose
discriminant is one, a perfect square, with the identity as square root
model: the smaller root is selected. -/
theorem sphere_hit_root_selection_witness :
    Sphere.root1 id sphereUnit rayFront ≤ Sphere.root2 id sphereUnit rayFront ∧
    Sphere.hit id sphereUnit rayFront intEps =
      some (Hit.new (Ray.at rayFront (Sphere.root1 id sphereUnit rayFront))
        ((Ray.at rayFront (Sphere.root1 id sphereUnit rayFront) - sphereUnit.center) /
          sphereUnit.radius)
        rayFront (Sphere.root1 id sphereUnit rayFront) sphereUnit.mat) := by
  have hD1 : Sphere.discr sphereUnit rayFront = 1 := by
    norm_num [Sphere.discr, Sphere.halfB, Sphere.cQuad, sphereUnit, rayFront,
      Vec3.dot, Vec3.lengthSquared, vec3]
  have hr1 : Sphere.root1 id sphereUnit rayFront = 1 := by
    norm_num [Sphere.root1, Sphere.halfB, Sphere.discr, Sphere.cQuad, id_eq,
      sphereUnit, rayFront, Vec3.dot, Vec3.lengthSquared, vec3]
  have hA : (0 : ℚ) < Vec3.lengthSquared rayFront.dir := by
    norm_num [rayFront, Vec3.lengthSquared, Vec3.dot, vec3]
  have H := sphere_hit_root_selection id sphereUnit rayFront intEps hA
    (fun _ => ⟨by rw [id_eq, hD1]; norm_num, by rw [id_eq, hD1]; norm_num⟩)
  have H2 := H.2 (by rw [hD1]; norm_num)
  refine ⟨H2.1, ?_⟩
  rw [H2.2.2.2, if_pos ?_]
  refine ⟨?_, ?_⟩
  · rw [hr1]
    norm_num [intEps, Interval.new]
  · rw [hr1]
    simp [intEps, Interval.new]

/-- Claim C9: intersecting a sphere wrapped in a Translate with offset o
is the same as intersecting the sphere placed directly at the translated
center: the results are equal as optional hits, so point, normal, t and
front face all agree, for every square root model, ray and interval. -/
theorem translate_sphere_roundtrip (sq : ℚ → ℚ) (o c : Vec3) (r : ℚ) (m : Material)
    (ray : Ray) (rayT : Interval) :
    Translate.hit o (fun ray2 int2 => Sphere.hit sq ⟨c, r, m⟩ ray2 int2) ray rayT =
      Sphere.hit sq ⟨c + o, r, m⟩ ray rayT := by
  have hv : ∀ t : ℚ, Ray.at ⟨ray.origin - o, ray.dir⟩ t - c = Ray.at ray t - (c + o) := by
    intro t
    ext <;> simp [Ray.at] <;> ring
  have hp : ∀ t : ℚ, Ray.at ⟨ray.origin - o, ray.dir⟩ t + o = Ray.at ray t := by
    intro t
    ext <;> simp [Ray.at] <;> ring
  have ea : Sphere.halfB ⟨c, r, m⟩ ⟨ray.origin - o, ray.dir⟩ =
      Sphere.halfB ⟨c + o, r, m⟩ ray := by
    simp only [Sphere.halfB, Vec3.dot, Vec3.sub_def, Vec3.add_def]
    ring_nf
  have ec : Sphere.cQuad ⟨c, r, m⟩ ⟨ray.origin - o, ray.dir⟩ =
      Sphere.cQuad ⟨c + o, r, m⟩ ray := by
    simp only [Sphere.cQuad, Vec3.lengthSquared, Vec3.dot, Vec3.sub_def, Vec3.add_def]
    ring_nf
  have ed : Sphere.discr ⟨c, r, m⟩ ⟨ray.origin - o, ray.dir⟩ =
      Sphere.discr ⟨c + o, r, m⟩ ray := by
    simp only [Sphere.discr, ea, ec]
  have er1 : Sphere.root1 sq ⟨c, r, m⟩ ⟨ray.origin - o, ray.dir⟩ =
      Sphere.root1 sq ⟨c + o, r, m⟩ ray := by
    simp only [Sphere.root1, ea, ed]
  have er2 : Sphere.root2 sq ⟨c, r, m⟩ ⟨ray.origin - o, ray.dir⟩ =
      Sphere.root2 sq ⟨c + o, r, m⟩ ray := by
    simp only [Sphere.root2, ea, ed]
  simp only [Translate.hit]
  rw [sphere_hit_eq, sphere_hit_eq, ed, er1, er2]
  split_ifs with h1 h2 h3
  · rfl
  · simp only [Hit.new, hv, hp]
  · simp only [Hit.new, hv, hp]
  · rfl

/-- Interval coherence of a primitive for a fixed ray and outer interval,
the contract satisfied by the hit functions of the repository: for every
narrowed interval with the same lower bound, a returned hit has its t
below the narrowed upper bound and is also the hit returned on the outer
interval, and when the narrowed query fails every hit returned on the
outer interval has its t at or above the narrowed upper bound. -/
def GoodPrim (obj : HitFun) (ray : Ray) (I0 : Interval) : Prop :=
  ∀ c : WithTop ℚ, c ≤ I0.max →
    (∀ h, obj ray (Interval.new I0.min c) = some h →
      ((h.t : WithTop ℚ) ≤ c ∧ obj ray I0 = some h)) ∧
    (obj ray (Interval.new I0.min c) = none →
      ∀ h, obj ray I0 = some h → c ≤ (h.t : WithTop ℚ))

/-- Invariant of the linear scan of the HittableVec hit: starting from any
accumulator whose hit carries the current closest t, the scan returns none
only if it started empty handed and every member missed at the current
interval, and a returned hit either is the starting one or comes from a
member queried at the outer interval, has its t below the starting closest
t, and its t is minimal among all member hits on the outer interval. -/
theorem hitLoop_spec (ray : Ray) (I0 : Interval) :
    ∀ (objs : List HitFun) (acc : Option Hit) (c : WithTop ℚ),
      (∀ obj ∈ objs, GoodPrim obj ray I0) →
      c ≤ I0.max →
      (∀ h, acc = some h → (h.t : WithTop ℚ) = c) →
      (hitLoop ray I0.min objs acc c = none →
        acc = none ∧ ∀ obj ∈ objs, obj ray (Interval.new I0.min c) = none) ∧
      (∀ h, hitLoop ray I0.min objs acc c = some h →
        (acc = some h ∨ ∃ obj ∈ objs, obj ray I0 = some h) ∧
        ((h.t : WithTop ℚ) ≤ c) ∧
        ∀ obj ∈ objs, ∀ h2, obj ray I0 = some h2 →
          (h.t : WithTop ℚ) ≤ (h2.t : WithTop ℚ)) := by
  intro objs
  induction objs with
  | nil =>
    intro acc c _ _ hacc
    refine ⟨fun hres => ⟨hres, fun obj ho => absurd ho (List.not_mem_nil obj)⟩,
      fun h hres => ⟨Or.inl hres, le_of_eq (hacc h hres),
        fun obj ho => absurd ho (List.not_mem_nil obj)⟩⟩
  | cons obj rest ih =>
    intro acc c hgood hc hacc
    have hobj : GoodPrim obj ray I0 := hgood obj (List.mem_cons_self obj rest)
    have hrest : ∀ o ∈ rest, GoodPrim o ray I0 :=
      fun o ho => hgood o (List.mem_cons_of_mem obj ho)
    rcases hq : obj ray (Interval.new I0.min c) with _ | h0
    · have step : hitLoop ray I0.min (obj :: rest) acc c = hitLoop ray I0.min rest acc c := by
        simp [hitLoop, hq]
      have IH := ih acc c hrest hc hacc
      constructor
      · intro hres
        rw [step] at hres
        obtain ⟨ha1, ha2⟩ := IH.1 hres
        refine ⟨ha1, fun o ho => ?_⟩
        rcases List.mem_cons.mp ho with rfl | ho2
        · exact hq
        · exact ha2 o ho2
      · intro h hres
        rw [step] at hres
        obtain ⟨hsrc, hle, hmin⟩ := IH.2 h hres
        refine ⟨?_, hle, fun o ho h2 he2 => ?_⟩
        · rcases hsrc with h1 | ⟨o, ho, he⟩
          · exact Or.inl h1
          · exact Or.inr ⟨o, List.mem_cons_of_mem obj ho, he⟩
        · rcases List.mem_cons.mp ho with rfl | ho2
          · exact le_trans hle ((hobj c hc).2 hq h2 he2)
          · exact hmin o ho2 h2 he2
    · obtain ⟨hg1, hg2⟩ := (hobj c hc).1 h0 hq
      have step : hitLoop ray I0.min (obj :: rest) acc c =
          hitLoop ray I0.min rest (some h0) (h0.t : WithTop ℚ) := by
        simp [hitLoop, hq]
      have IH := ih (some h0) (h0.t : WithTop ℚ) hrest (le_trans hg1 hc)
        (fun h hh => by cases hh; rfl)
      constructor
      · intro hres
        rw [step] at hres
        obtain ⟨ha1, _⟩ := IH.1 hres
        exact absurd ha1 (by simp)
      · intro h hres
        rw [step] at hres
        obtain ⟨hsrc, hle, hmin⟩ := IH.2 h hres
        refine ⟨?_, le_trans hle hg1, fun o ho h2 he2 => ?_⟩
        · rcases hsrc with h1 | ⟨o, ho, he⟩
          · injection h1 with h1
            exact Or.inr ⟨obj, List.mem_cons_self obj rest, h1 ▸ hg2⟩
          · exact Or.inr ⟨o, List.mem_cons_of_mem obj ho, he⟩
        · rcases List.mem_cons.mp ho with rfl | ho2
          · have he0 : h2 = h0 := by
              rw [hg2] at he2
              injection he2 with he2
              exact he2.symm
            rw [he0]
            exact hle
          · exact hmin o ho2 h2 he2

/-- Claim C1: the aggregate intersection, a linear scan whose search
interval is seeded at the outer interval and narrowed to the closest t so
far after each improved hit, returns some hit exactly when some member
hits within the original interval, the returned hit is one returned by a
member on the original interval, and its t is minimal among all member
hits on the original interval, provided every member is interval
coherent. -/
theorem scene_hit_nearest (objs : List HitFun) (ray : Ray) (I0 : Interval)
    (hgood : ∀ obj ∈ objs, GoodPrim obj ray I0) :
    (∀ h, HittableVec.hit objs ray I0 = some h →
      (∃ obj ∈ objs, obj ray I0 = some h) ∧
      ∀ obj ∈ objs, ∀ h2, obj ray I0 = some h2 → h.t ≤ h2.t) ∧
    ((∃ obj ∈ objs, ∃ h2, obj ray I0 = some h2) →
      ∃ h, HittableVec.hit objs ray I0 = some h) := by
  have H := hitLoop_spec ray I0 objs none I0.max hgood le_rfl (fun h hh => by cases hh)
  have hunf : HittableVec.hit objs ray I0 = hitLoop ray I0.min objs none I0.max := rfl
  have heta : Interval.new I0.min I0.max = I0 := rfl
  constructor
  · intro h hres
    rw [hunf] at hres
    obtain ⟨hsrc, _, hmin⟩ := H.2 h hres
    refine ⟨?_, fun obj ho h2 he2 => ?_⟩
    · rcases hsrc with h1 | h1
      · exact absurd h1 (by simp)
      · exact h1
    · exact_mod_cast hmin obj ho h2 he2
  · rintro ⟨o, ho, h2, he2⟩
    rcases hres : HittableVec.hit objs ray I0 with _ | h
    · rw [hunf] at hres
      obtain ⟨_, hall⟩ := H.1 hres
      rw [heta] at hall
      exact absurd he2 (by rw [hall o ho]; simp)
    · exact ⟨h, rfl⟩

/-- A hit with parameter t, used by threshold primitives in the claim C1
witness. -/
def constHit (t0 : ℚ) : Hit := ⟨vec3 0 0 0, vec3 0 0 1, t0, true, mLam⟩

/-- A primitive hitting at a fixed parameter whenever the interval
strictly surrounds it, used by the claim C1 witness. -/
def constPrim (t0 : ℚ) : HitFun :=
  fun _ i => if i.surrounds t0 then some (constHit t0) else none

/-- Threshold primitives are interval coherent. -/
theorem constPrim_good (t0 : ℚ) (ray : Ray) (I0 : Interval) :
    GoodPrim (constPrim t0) ray I0 := by
  intro c hc
  constructor
  · intro h hh
    simp only [constPrim] at hh
    split_ifs at hh with h1
    · injection hh with hh
      obtain ⟨hl, hr⟩ := h1
      subst hh
      refine ⟨le_of_lt hr, ?_⟩
      simp only [constPrim, if_pos (show I0.surrounds t0 from ⟨hl, lt_of_lt_of_le hr hc⟩)]
  · intro hnone h hh
    simp only [constPrim] at hnone hh
    split_ifs at hnone with h1
    split_ifs at hh with h2
    injection hh with hh
    subst hh
    simp only [constHit]
    rcases h2 with ⟨hl, _⟩
    by_contra hcon
    exact h1 ⟨hl, not_le.mp hcon⟩

/-- Ray used by the claim C1 witness. -/
def wRay : Ray := ⟨vec3 0 0 0, vec3 0 0 1⟩

/-- Interval from zero to ten used by the claim C1 witness. -/
def wInt : Interval := Interval.new 0 ((10 : ℚ) : WithTop ℚ)

/-- Witness for claim C1: a scene of two threshold primitives at five and
three returns the hit at three, whose t is minimal among both member
hits; the minimality conjunct is obtained from the claim theorem. -/
theorem scene_hit_nearest_witness :
    HittableVec.hit [constPrim 5, constPrim 3] wRay wInt = some (constHit 3) ∧
    constPrim 5 wRay wInt = some (constHit 5) ∧
    constPrim 3 wRay wInt = some (constHit 3) ∧
    (constHit 3).t ≤ (constHit 5).t := by
  have hg : ∀ obj ∈ [constPrim 5, constPrim 3], GoodPrim obj wRay wInt := by
    intro obj ho
    rcases List.mem_cons.mp ho with rfl | ho2
    · exact constPrim_good 5 wRay wInt
    rcases List.mem_cons.mp ho2 with rfl | ho3
    · exact constPrim_good 3 wRay wInt
    · exact absurd ho3 (List.not_mem_nil obj)
  have H := scene_hit_nearest [constPrim 5, constPrim 3] wRay wInt hg
  have heval : HittableVec.hit [constPrim 5, constPrim 3] wRay wInt = some (constHit 3) := by
    decide
  have hm5 : constPrim 5 wRay wInt = some (constHit 5) := by decide
  have hm3 : constPrim 3 wRay wInt = some (constHit 3) := by decide
  exact ⟨heval, hm5, hm3,
    (H.1 (constHit 3) heval).2 (constPrim 5) (List.mem_cons_self _ _) (constHit 5) hm5⟩

end RayTracer
